import Mathlib

/-!
Verification development for the adaptive-learning core of the
personalized learning platform (Node.js / Express / Mongoose backend).

Shallow embedding conventions:
* JavaScript numbers are modelled as exact rationals (`ℚ`); `Math.round`
  is modelled as `jround` (round half up, as in JS).  All arithmetic in the
  embedded code paths stays on values where double rounding plays no role.
* Mongoose documents become Lean structures; a schema method that mutates
  `this` becomes a function `State → ... → State`.
* Dates (`new Date()`, `Date.now()`) and fresh ObjectIds are either dropped
  (when no logic reads them) or passed in as explicit parameters.
* External calls (Gemini embeddings / completions, MongoDB lookups) are
  parameters of the embedded functions: the deterministic core of each
  method is embedded, with its inputs made explicit.
-/

/-- JS `Math.round`: round half away from zero towards +∞ (`Math.round(0.5) = 1`,
`Math.round(-0.5) = 0`), i.e. `⌊x + 1/2⌋`. -/
def jround (x : ℚ) : ℚ := ((⌊x + (1 : ℚ) / 2⌋ : ℤ) : ℚ)

/-! ## TopicMastery (backend/models/TopicMastery.js) -/

/-- One element of `recentQuizzes` (TopicMastery.js, schema field).  The
`attemptedAt : Date` field is dropped: no embedded logic reads it. -/
structure QuizEntry where
  quizId : String
  score : ℚ
  difficulty : String
  timeSpent : ℚ
deriving DecidableEq

/-- The TopicMastery document fields that the embedded methods read or write.
Reference fields (`userId`, `courseId`, `topicName`) and the date fields are
omitted: the methods never branch on them. -/
structure TopicMastery where
  masteryScore : ℚ
  classification : String
  quizAttempts : ℕ
  averageQuizScore : ℚ
  highestQuizScore : ℚ
  lowestQuizScore : ℚ
  recentQuizzes : List QuizEntry
deriving DecidableEq

/-- Schema defaults of a freshly created `new TopicMastery({...})` document. -/
def initTopicMastery : TopicMastery :=
  { masteryScore := 0, classification := "weak", quizAttempts := 0,
    averageQuizScore := 0, highestQuizScore := 0, lowestQuizScore := 0,
    recentQuizzes := [] }

/-- `topicMasterySchema.methods.updateMasteryFromQuiz` (TopicMastery.js
lines 143-187), step for step: push onto `recentQuizzes`, `shift` when the
length exceeds 10, first-attempt initialisation of highest/lowest, then
highest/lowest update, rounded buffer average, and the 0.7/0.3 blend. -/
def updateMasteryFromQuiz (m : TopicMastery) (quizScore : ℚ) (quizId : String)
    (difficulty : String) (timeSpent : ℚ) : TopicMastery :=
  let quizAttempts := m.quizAttempts + 1
  let pushed := m.recentQuizzes ++ [⟨quizId, quizScore, difficulty, timeSpent⟩]
  let recentQuizzes := if 10 < pushed.length then pushed.tail else pushed
  let highest0 := if quizAttempts = 1 then quizScore else m.highestQuizScore
  let lowest0 := if quizAttempts = 1 then quizScore else m.lowestQuizScore
  let highestQuizScore := if highest0 < quizScore then quizScore else highest0
  let lowestQuizScore := if quizScore < lowest0 then quizScore else lowest0
  let totalScore := (recentQuizzes.map QuizEntry.score).sum
  let averageQuizScore := jround (totalScore / (recentQuizzes.length : ℚ))
  let masteryScore :=
    jround (averageQuizScore * (7 / 10) + m.masteryScore * (3 / 10))
  { m with masteryScore := masteryScore, quizAttempts := quizAttempts,
           averageQuizScore := averageQuizScore,
           highestQuizScore := highestQuizScore,
           lowestQuizScore := lowestQuizScore,
           recentQuizzes := recentQuizzes }

/-- The classification thresholds of the `pre('save')` hook
(TopicMastery.js lines 131-140). -/
def classify (score : ℚ) : String :=
  if score < 40 then "weak" else if score < 75 then "medium" else "strong"

/-- The `pre('save')` hook itself: every save recomputes `classification`
from `masteryScore` and changes nothing else. -/
def saveTopicMastery (m : TopicMastery) : TopicMastery :=
  { m with classification := classify m.masteryScore }

/-- The payload of one `recordQuizResult` call (route
`POST /learning/topic-mastery/update`, part_003 lines 501-528). -/
structure QuizInput where
  score : ℚ
  quizId : String
  difficulty : String
  timeSpent : ℚ
deriving DecidableEq

/-- One full mutation step as performed by the route:
`mastery.updateMasteryFromQuiz(...)` followed by `mastery.save()`
(which runs the classification hook). -/
def recordQuizResult (m : TopicMastery) (i : QuizInput) : TopicMastery :=
  saveTopicMastery (updateMasteryFromQuiz m i.score i.quizId i.difficulty i.timeSpent)

/-- The `recentQuizzes` entry created for a given input. -/
def entryOfInput (i : QuizInput) : QuizEntry :=
  ⟨i.quizId, i.score, i.difficulty, i.timeSpent⟩

/-- The ring-buffer step on the raw list: push, then drop the oldest
element if the length exceeds 10. -/
def pushTrim (l : List QuizEntry) (e : QuizEntry) : List QuizEntry :=
  let p := l ++ [e]
  if 10 < p.length then p.tail else p

lemma updateMasteryFromQuiz_recentQuizzes (m : TopicMastery) (i : QuizInput) :
    (updateMasteryFromQuiz m i.score i.quizId i.difficulty i.timeSpent).recentQuizzes
      = pushTrim m.recentQuizzes (entryOfInput i) := rfl

lemma recordQuizResult_recentQuizzes (m : TopicMastery) (i : QuizInput) :
    (recordQuizResult m i).recentQuizzes = pushTrim m.recentQuizzes (entryOfInput i) := rfl

lemma foldl_recordQuizResult_recentQuizzes (inputs : List QuizInput) :
    ∀ m : TopicMastery,
      (inputs.foldl recordQuizResult m).recentQuizzes
        = inputs.foldl (fun l i => pushTrim l (entryOfInput i)) m.recentQuizzes := by
  induction inputs with
  | nil => intro m; rfl
  | cons i rest ih =>
      intro m
      simp only [List.foldl_cons]
      rw [ih, recordQuizResult_recentQuizzes]

lemma pushTrim_length_le (l : List QuizEntry) (e : QuizEntry) (h : l.length ≤ 10) :
    (pushTrim l e).length ≤ 10 := by
  unfold pushTrim
  by_cases h10 : 10 < (l ++ [e]).length
  · simp only [if_pos h10]
    simp [List.length_tail]
    omega
  · simp only [if_neg h10]
    omega

lemma foldl_pushTrim_drop (inputs : List QuizInput) :
    ∀ l : List QuizEntry, l.length ≤ 10 →
      inputs.foldl (fun l i => pushTrim l (entryOfInput i)) l
        = (l ++ inputs.map entryOfInput).drop (l.length + inputs.length - 10) := by
  induction inputs with
  | nil =>
      intro l h
      simp [Nat.sub_eq_zero_of_le h]
  | cons i rest ih =>
      intro l h
      simp only [List.foldl_cons, List.map_cons, List.length_cons]
      by_cases h10 : 10 < (l ++ [entryOfInput i]).length
      · -- overflow: l.length = 10, the oldest entry is shifted out
        have hlen : l.length = 10 := by
          simp only [List.length_append, List.length_singleton] at h10; omega
        have hne : l ≠ [] := by
          intro hnil; rw [hnil] at hlen; simp at hlen
        obtain ⟨x, l2, rfl⟩ := List.exists_cons_of_ne_nil hne
        have hstep : pushTrim (x :: l2) (entryOfInput i) = l2 ++ [entryOfInput i] := by
          unfold pushTrim
          simp only [if_pos h10]
          rfl
        rw [hstep, ih _ (by simp only [List.length_cons] at hlen; simp [hlen])]
        have hl2 : l2.length = 9 := by simp only [List.length_cons] at hlen; omega
        simp only [List.append_assoc, List.singleton_append]
        have e2 : (l2 ++ [entryOfInput i]).length + rest.length - 10 = rest.length := by
          simp [hl2]
        have e3 : (x :: l2).length + (rest.length + 1) - 10 = rest.length + 1 := by
          simp [hl2]
        rw [e2, e3, List.cons_append, List.drop_succ_cons]
      · -- no overflow: plain append
        have hstep : pushTrim l (entryOfInput i) = l ++ [entryOfInput i] := by
          unfold pushTrim
          simp only [if_neg h10]
        have hlen : (l ++ [entryOfInput i]).length ≤ 10 := by omega
        rw [hstep, ih _ hlen]
        simp only [List.length_append, List.length_singleton, List.append_assoc,
          List.singleton_append]
        congr 1
        omega

lemma recordQuizResult_classification (m : TopicMastery) (i : QuizInput) :
    (recordQuizResult m i).classification = classify (recordQuizResult m i).masteryScore := rfl

/-- C2: on every `recordQuizResult` (`updateMasteryFromQuiz`), the new
`masteryScore` is `round(0.7 × averageQuizScore + 0.3 × previous masteryScore)`,
where `averageQuizScore` is the rounded mean of the scores in the recent-quiz
ring buffer; concretely, from `masteryScore = 0`, a quiz score of 90 yields 63,
and a second score of 90 yields 82. -/
theorem updateMasteryFromQuiz_score_blend :
    (∀ (m : TopicMastery) (qs : ℚ) (qid diff : String) (ts : ℚ),
        (updateMasteryFromQuiz m qs qid diff ts).masteryScore
          = jround ((7 / 10) * (updateMasteryFromQuiz m qs qid diff ts).averageQuizScore
              + (3 / 10) * m.masteryScore)
      ∧ (updateMasteryFromQuiz m qs qid diff ts).averageQuizScore
          = jround ((((updateMasteryFromQuiz m qs qid diff ts).recentQuizzes.map
                QuizEntry.score).sum)
              / ((updateMasteryFromQuiz m qs qid diff ts).recentQuizzes.length : ℚ)))
    ∧ (updateMasteryFromQuiz initTopicMastery 90 "quiz-1" "medium" 0).masteryScore = 63
    ∧ (updateMasteryFromQuiz (updateMasteryFromQuiz initTopicMastery 90 "quiz-1" "medium" 0)
          90 "quiz-2" "medium" 0).masteryScore = 82 := by
  refine ⟨fun m qs qid diff ts => ⟨?_, rfl⟩,
    by norm_num [updateMasteryFromQuiz, initTopicMastery, jround],
    by norm_num [updateMasteryFromQuiz, initTopicMastery, jround]⟩
  have h1 : (updateMasteryFromQuiz m qs qid diff ts).masteryScore
      = jround ((updateMasteryFromQuiz m qs qid diff ts).averageQuizScore * (7 / 10)
          + m.masteryScore * (3 / 10)) := rfl
  rw [h1]
  congr 1
  ring

/-- C5: `classify` is the pure weak/medium/strong threshold function of the
mastery score, and after any non-empty sequence of mutation steps
(`updateMasteryFromQuiz` + save hook) the stored `classification` equals
`classify masteryScore`. -/
theorem classification_follows_masteryScore :
    (∀ x : ℚ, (x < 40 → classify x = "weak")
        ∧ (40 ≤ x → x < 75 → classify x = "medium")
        ∧ (75 ≤ x → classify x = "strong"))
    ∧ ∀ (m : TopicMastery) (inputs : List QuizInput), inputs ≠ [] →
        (inputs.foldl recordQuizResult m).classification
          = classify (inputs.foldl recordQuizResult m).masteryScore := by
  constructor
  · intro x
    refine ⟨fun h => ?_, fun h1 h2 => ?_, fun h => ?_⟩
    · unfold classify
      rw [if_pos h]
    · unfold classify
      rw [if_neg (not_lt.2 h1), if_pos h2]
    · unfold classify
      rw [if_neg (not_lt.2 (le_trans (by norm_num) h)),
        if_neg (not_lt.2 (le_trans (by norm_num) h))]
  · intro m inputs
    induction inputs generalizing m with
    | nil => intro h; exact absurd rfl h
    | cons i rest ih =>
        intro _
        rcases rest with - | ⟨j, rest2⟩
        · exact recordQuizResult_classification m i
        · simpa using ih (recordQuizResult m i) (by simp)

/-- C5 witness: one concrete mutation step from a fresh record. -/
theorem classification_follows_masteryScore_witness :
    (([⟨90, "q1", "medium", 0⟩] : List QuizInput).foldl recordQuizResult
        initTopicMastery).classification
      = classify (([⟨90, "q1", "medium", 0⟩] : List QuizInput).foldl recordQuizResult
        initTopicMastery).masteryScore :=
  classification_follows_masteryScore.2 initTopicMastery _ (List.cons_ne_nil _ _)

/-- C7: `recentQuizzes` is a bounded ring buffer of capacity 10: starting from
an empty buffer, after 11 `recordQuizResult` calls it has length exactly 10
and holds the entries of calls 2..11 in recording order. -/
theorem recentQuizzes_ring_buffer :
    ∀ (inputs : List QuizInput) (m : TopicMastery),
      m.recentQuizzes = [] → inputs.length = 11 →
      (inputs.foldl recordQuizResult m).recentQuizzes = (inputs.drop 1).map entryOfInput
      ∧ (inputs.foldl recordQuizResult m).recentQuizzes.length = 10 := by
  intro inputs m hbuf hlen
  have h := foldl_recordQuizResult_recentQuizzes inputs m
  rw [foldl_pushTrim_drop inputs m.recentQuizzes (by rw [hbuf]; simp)] at h
  rw [hbuf] at h
  simp only [List.nil_append, List.length_nil, Nat.zero_add, hlen] at h
  have hidx : 11 - 10 = 1 := rfl
  rw [hidx] at h
  constructor
  · rw [h, List.map_drop]
  · rw [h]
    simp [hlen]

/-- Eleven concrete quiz submissions, for the C7 witness. -/
def elevenInputs : List QuizInput :=
  [⟨10, "a", "easy", 1⟩, ⟨20, "b", "easy", 1⟩, ⟨30, "c", "easy", 1⟩,
   ⟨40, "d", "medium", 1⟩, ⟨50, "e", "medium", 1⟩, ⟨60, "f", "medium", 1⟩,
   ⟨70, "g", "medium", 1⟩, ⟨80, "h", "hard", 1⟩, ⟨85, "i", "hard", 1⟩,
   ⟨90, "j", "hard", 1⟩, ⟨95, "k", "hard", 1⟩]

/-- C7 witness: the ring-buffer theorem applied to eleven concrete calls. -/
theorem recentQuizzes_ring_buffer_witness :
    (elevenInputs.foldl recordQuizResult initTopicMastery).recentQuizzes
        = (elevenInputs.drop 1).map entryOfInput
      ∧ (elevenInputs.foldl recordQuizResult initTopicMastery).recentQuizzes.length = 10 :=
  recentQuizzes_ring_buffer elevenInputs initTopicMastery rfl (by decide)

/-! ## LearningAgent (backend/services/LearningAgent.js) and LearningPlan -/

/-- A week of a `LearningPlan` (backend/models/LearningPlan.js `weekSchema`)
plus the `description` property that `selfReflectAndReplan` writes on the
in-memory document (the week schema itself has no such field; the agent
still assigns it). -/
structure PlanWeek where
  weekNumber : ℕ
  topics : List String
  hoursPerWeek : ℚ
  tasks : List String
  status : String
  description : String
deriving DecidableEq

/-- One entry of `LearningMemory.planAdjustments` (the fields
`selfReflectAndReplan` fills; `adjustmentDate` dropped). -/
structure PlanAdjustment where
  reason : String
  topicsAffected : List String
  automatedBy : String
deriving DecidableEq

/-- The mutation applied to the chosen week: push the remedial task and
extend the description (LearningAgent.js lines 116-117). -/
def addReviewTask (t : String) (w : PlanWeek) : PlanWeek :=
  { w with tasks := w.tasks ++ ["Review: " ++ t],
           description := w.description ++ " (Includes remedial focus on " ++ t ++ ")" }

/-- `findIndex(w => !w.status || w.status !== 'completed')` followed by the
containment-guarded mutation of that week (LearningAgent.js lines 112-117),
as one pass over the week list.  The boolean reports whether a task was
injected (and hence whether an adjustment is logged and the plan saved). -/
def injectReview (t : String) : List PlanWeek → List PlanWeek × Bool
  | [] => ([], false)
  | w :: rest =>
    if w.status ≠ "completed" then
      if ("Review: " ++ t) ∈ w.tasks then (w :: rest, false)
      else (addReviewTask t w :: rest, true)
    else
      let p := injectReview t rest
      (w :: p.1, p.2)

/-- `LearningAgent.selfReflectAndReplan` (LearningAgent.js lines 102-134),
deterministic core: the weak-topic list (result of the TopicMastery query) and
the loaded plan/memory are parameters; the returned message is ignored. -/
def selfReflectAndReplan (weakTopics : List String) (plan : List PlanWeek)
    (adjustments : List PlanAdjustment) : List PlanWeek × List PlanAdjustment :=
  match weakTopics with
  | [] => (plan, adjustments)
  | t :: _ =>
    let p := injectReview t plan
    if p.2 then
      (p.1, adjustments ++ [⟨"weak-topic-repeat", [t], "copilot-recommendation"⟩])
    else (plan, adjustments)

/-- Total number of occurrences of the remedial task string in the plan. -/
def countReviewTasks (t : String) (plan : List PlanWeek) : ℕ :=
  (plan.map (fun w => w.tasks.count ("Review: " ++ t))).sum

lemma injectReview_false_eq (t : String) :
    ∀ plan : List PlanWeek, (injectReview t plan).2 = false → (injectReview t plan).1 = plan := by
  intro plan
  induction plan with
  | nil => intro _; rfl
  | cons w rest ih =>
      intro h
      by_cases hs : w.status ≠ "completed"
      · by_cases hm : ("Review: " ++ t) ∈ w.tasks
        · simp [injectReview, hs, hm]
        · simp [injectReview, hs, hm] at h
      · simp only [injectReview, if_neg hs] at h ⊢
        rw [ih h]

lemma injectReview_idem (t : String) :
    ∀ plan : List PlanWeek, injectReview t (injectReview t plan).1 = ((injectReview t plan).1, false) := by
  intro plan
  induction plan with
  | nil => rfl
  | cons w rest ih =>
      by_cases hs : w.status ≠ "completed"
      · by_cases hm : ("Review: " ++ t) ∈ w.tasks
        · simp [injectReview, hs, hm]
        · have hmem : ("Review: " ++ t) ∈ (addReviewTask t w).tasks := by
            simp [addReviewTask]
          have hs2 : (addReviewTask t w).status ≠ "completed" := hs
          simp [injectReview, hs, hm, hs2, hmem, addReviewTask]
      · simp only [injectReview, if_neg hs]
        simp only [injectReview, if_neg hs, ih]

lemma injectReview_of_find_mem (t : String) :
    ∀ (plan : List PlanWeek) (w : PlanWeek),
      plan.find? (fun w2 => w2.status ≠ "completed") = some w →
      ("Review: " ++ t) ∈ w.tasks →
      injectReview t plan = (plan, false) := by
  intro plan
  induction plan with
  | nil => intro w h; simp at h
  | cons v rest ih =>
      intro w hfind hmem
      by_cases hs : v.status ≠ "completed"
      · have hw : v = w := by
          rw [List.find?_cons_of_pos _ (by simpa using hs)] at hfind
          exact Option.some.inj hfind
        subst hw
        simp [injectReview, hs, hmem]
      · rw [List.find?_cons_of_neg _ (by simpa using hs)] at hfind
        simp only [injectReview, if_neg hs]
        rw [ih w hfind hmem]

lemma injectReview_of_find_not_mem (t : String) :
    ∀ (plan : List PlanWeek) (w : PlanWeek),
      plan.find? (fun w2 => w2.status ≠ "completed") = some w →
      ("Review: " ++ t) ∉ w.tasks →
      (injectReview t plan).2 = true
      ∧ countReviewTasks t (injectReview t plan).1 = countReviewTasks t plan + 1 := by
  intro plan
  induction plan with
  | nil => intro w h; simp at h
  | cons v rest ih =>
      intro w hfind hmem
      by_cases hs : v.status ≠ "completed"
      · have hw : v = w := by
          rw [List.find?_cons_of_pos _ (by simpa using hs)] at hfind
          exact Option.some.inj hfind
        subst hw
        constructor
        · simp [injectReview, hs, hmem]
        · simp only [injectReview, if_neg (by simpa using hmem), if_pos hs]
          simp [countReviewTasks, addReviewTask, List.count_append]
          omega
      · rw [List.find?_cons_of_neg _ (by simpa using hs)] at hfind
        obtain ⟨h2, hcount⟩ := ih w hfind hmem
        constructor
        · simpa [injectReview, if_neg hs] using h2
        · simp only [injectReview, if_neg hs]
          simp only [countReviewTasks, List.map_cons, List.sum_cons] at hcount ⊢
          omega

/-- C4: `selfReflectAndReplan` is idempotent per weak topic per week: when the
first non-completed week already contains `"Review: <topic>"` for the first
weak topic, a run changes neither the plan nor the adjustment log; running it
twice in a row equals running it once, and from a state without the task it
appends the remedial task exactly once and logs exactly one adjustment. -/
theorem selfReflectAndReplan_idempotent :
    (∀ (wt : List String) (plan : List PlanWeek) (adj : List PlanAdjustment),
        selfReflectAndReplan wt (selfReflectAndReplan wt plan adj).1
            (selfReflectAndReplan wt plan adj).2
          = selfReflectAndReplan wt plan adj)
    ∧ (∀ (t : String) (rest : List String) (plan : List PlanWeek)
          (adj : List PlanAdjustment) (w : PlanWeek),
        plan.find? (fun w2 => w2.status ≠ "completed") = some w →
        ("Review: " ++ t) ∈ w.tasks →
        selfReflectAndReplan (t :: rest) plan adj = (plan, adj))
    ∧ (∀ (t : String) (rest : List String) (plan : List PlanWeek)
          (adj : List PlanAdjustment) (w : PlanWeek),
        plan.find? (fun w2 => w2.status ≠ "completed") = some w →
        ("Review: " ++ t) ∉ w.tasks →
        countReviewTasks t (selfReflectAndReplan (t :: rest) plan adj).1
            = countReviewTasks t plan + 1
        ∧ (selfReflectAndReplan (t :: rest) plan adj).2.length = adj.length + 1) := by
  refine ⟨?_, ?_, ?_⟩
  · intro wt plan adj
    match wt with
    | [] => rfl
    | t :: rest =>
        by_cases hp : (injectReview t plan).2 = true
        · have h1 : selfReflectAndReplan (t :: rest) plan adj
              = ((injectReview t plan).1,
                 adj ++ [⟨"weak-topic-repeat", [t], "copilot-recommendation"⟩]) := by
            simp [selfReflectAndReplan, hp]
          rw [h1]
          simp [selfReflectAndReplan, injectReview_idem t plan]
        · have hp2 : (injectReview t plan).2 = false := by
            revert hp; cases (injectReview t plan).2 <;> simp
          have h1 : selfReflectAndReplan (t :: rest) plan adj = (plan, adj) := by
            simp [selfReflectAndReplan, hp2]
          rw [h1, h1]
  · intro t rest plan adj w hfind hmem
    have h := injectReview_of_find_mem t plan w hfind hmem
    simp [selfReflectAndReplan, h]
  · intro t rest plan adj w hfind hmem
    obtain ⟨hflag, hcount⟩ := injectReview_of_find_not_mem t plan w hfind hmem
    constructor
    · simp only [selfReflectAndReplan, if_pos hflag]
      exact hcount
    · simp [selfReflectAndReplan, hflag]

/-- A small two-week plan used by the C4 witness. -/
def demoPlan : List PlanWeek :=
  [{ weekNumber := 1, topics := ["Signals"], hoursPerWeek := 5,
     tasks := ["Watch lecture"], status := "completed", description := "" },
   { weekNumber := 2, topics := ["Systems"], hoursPerWeek := 5,
     tasks := ["Read notes"], status := "pending", description := "" }]

/-- C4 witness: on the concrete plan, one run injects the task exactly once,
and a second run is the identity. -/
theorem selfReflectAndReplan_idempotent_witness :
    (selfReflectAndReplan ["Signals"]
        (selfReflectAndReplan ["Signals"] demoPlan []).1
        (selfReflectAndReplan ["Signals"] demoPlan []).2
      = selfReflectAndReplan ["Signals"] demoPlan [])
    ∧ countReviewTasks "Signals" (selfReflectAndReplan ["Signals"] demoPlan []).1
        = countReviewTasks "Signals" demoPlan + 1
    ∧ (selfReflectAndReplan ["Signals"] demoPlan []).2.length = 1 :=
  ⟨selfReflectAndReplan_idempotent.1 ["Signals"] demoPlan [],
   (selfReflectAndReplan_idempotent.2.2 "Signals" [] demoPlan [] (demoPlan.get ⟨1, by decide⟩)
      (by decide) (by decide)).1,
   (selfReflectAndReplan_idempotent.2.2 "Signals" [] demoPlan [] (demoPlan.get ⟨1, by decide⟩)
      (by decide) (by decide)).2⟩

/-- One element of `LearningMemory.copilotInteractions` (fields written by the
embedded code paths; `timestamp`, ratings and ids dropped).  The agent path
writes no `topic`, modelled as `none`. -/
structure CopilotInteraction where
  type : String
  topic : Option String
  question : String
  response : String
deriving DecidableEq

/-- JS `response.substring(0, 500)`. -/
def truncate500 (s : String) : String := String.mk (s.data.take 500)

/-- `LearningAgent.processInteraction`, step 4 plus the return value
(LearningAgent.js lines 71-88): append the interaction to
`memory.copilotInteractions` and hand the reply back to the caller.  The
language-model reply is the parameter `replyResponse`. -/
def processInteractionRecord (log : List CopilotInteraction)
    (userMessage replyResponse : String) : List CopilotInteraction × String :=
  (log ++ [{ type := "agent-session", topic := none,
             question := userMessage, response := replyResponse }],
   replyResponse)

/-- `LearningCopilotService.answerQuestion` interaction recording
(part_004 lines 466-473): this sibling path stores only the first 500
characters of the response. -/
def answerQuestionRecord (log : List CopilotInteraction)
    (topic question response : String) : List CopilotInteraction :=
  log ++ [{ type := "question", topic := some topic,
            question := question, response := truncate500 response }]

/-- A 501-character response. -/
def longReply : String := String.mk (List.replicate 501 'x')

set_option maxRecDepth 4000 in
/-- C8 counterexample: for a 501-character reply, the interaction the agent
persists keeps the full response, which differs from its 500-character
truncation — so the stored response is not `truncate500` of the reply. -/
theorem processInteraction_truncation_cex :
    ((processInteractionRecord [] "hi" longReply).1.map
        (fun i => i.response)) = [longReply]
    ∧ longReply ≠ truncate500 longReply := by
  constructor
  · rfl
  · intro h
    have hlen := congrArg String.length h
    have h1 : longReply.length = 501 := rfl
    have h2 : (truncate500 longReply).length = 500 := rfl
    rw [h1, h2] at hlen
    exact absurd hlen (by omega)

/-- C8 (amended): `LearningAgent.processInteraction` persists the full,
untruncated response and also returns it to the caller; the fixed
500-character truncation exists only in the copilot service's
`answerQuestion` recording path. -/
theorem processInteraction_full_response :
    (∀ (log : List CopilotInteraction) (msg resp : String),
        (processInteractionRecord log msg resp).1.getLast?
            = some { type := "agent-session", topic := none,
                     question := msg, response := resp }
        ∧ (processInteractionRecord log msg resp).2 = resp)
    ∧ (∀ (log : List CopilotInteraction) (t q resp : String),
        (answerQuestionRecord log t q resp).getLast?
            = some { type := "question", topic := some t,
                     question := q, response := truncate500 resp })
    ∧ (∀ resp : String, (truncate500 resp).length = min 500 resp.length) := by
  refine ⟨fun log msg resp => ⟨?_, rfl⟩, fun log t q resp => ?_, fun resp => ?_⟩
  · simp [processInteractionRecord]
  · simp [answerQuestionRecord]
  · show (resp.data.take 500).length = min 500 resp.data.length
    rw [List.length_take]

/-! ## LearningMemory mistake log (backend/models/Mastery.js, LearningMemory schema) -/

/-- One `mistakeLog` entry (date fields dropped). -/
structure MistakeEntry where
  mistakeId : String
  topic : String
  concept : String
  mistakeDescription : String
  correctAnswer : String
  occurrenceCount : ℕ
  isCorrected : Bool
  reviewedCount : ℕ
deriving DecidableEq

/-- The LearningMemory fields touched by `recordMistake`/`correctMistake`. -/
structure MistakeState where
  mistakeLog : List MistakeEntry
  totalMistakesMade : ℕ
  totalMistakesCorrected : ℕ
deriving DecidableEq

/-- The `find`-and-mutate of `recordMistake` (Mastery.js lines 263-284):
the first entry with the same topic and concept that is not corrected gets
its `occurrenceCount` incremented; otherwise a fresh entry is pushed at the
end.  The boolean reports whether a new entry was created.  The fresh
ObjectId is the parameter `newId`. -/
def recordMistakeLog (topic concept desc ans newId : String) :
    List MistakeEntry → List MistakeEntry × Bool
  | [] => ([{ mistakeId := newId, topic := topic, concept := concept,
              mistakeDescription := desc, correctAnswer := ans,
              occurrenceCount := 1, isCorrected := false, reviewedCount := 0 }], true)
  | m :: rest =>
    if m.topic = topic ∧ m.concept = concept ∧ m.isCorrected = false then
      ({ m with occurrenceCount := m.occurrenceCount + 1 } :: rest, false)
    else
      let p := recordMistakeLog topic concept desc ans newId rest
      (m :: p.1, p.2)

/-- `learningMemorySchema.methods.recordMistake` (Mastery.js lines 254-285). -/
def recordMistake (s : MistakeState) (topic concept desc ans newId : String) :
    MistakeState :=
  let p := recordMistakeLog topic concept desc ans newId s.mistakeLog
  { s with mistakeLog := p.1,
           totalMistakesMade :=
             if p.2 then s.totalMistakesMade + 1 else s.totalMistakesMade }

/-- The `find`-and-mutate of `correctMistake` (Mastery.js lines 288-295):
the first entry whose `mistakeId` matches is marked corrected unless it
already is.  The boolean reports whether anything changed. -/
def correctMistakeLog (mid : String) : List MistakeEntry → List MistakeEntry × Bool
  | [] => ([], false)
  | m :: rest =>
    if m.mistakeId = mid then
      if m.isCorrected then (m :: rest, false)
      else ({ m with isCorrected := true } :: rest, true)
    else
      let p := correctMistakeLog mid rest
      (m :: p.1, p.2)

/-- `learningMemorySchema.methods.correctMistake` (Mastery.js lines 288-295). -/
def correctMistake (s : MistakeState) (mid : String) : MistakeState :=
  let p := correctMistakeLog mid s.mistakeLog
  { s with mistakeLog := p.1,
           totalMistakesCorrected :=
             if p.2 then s.totalMistakesCorrected + 1 else s.totalMistakesCorrected }

/-- A state whose only (topic, concept) entry is already corrected. -/
def correctedState : MistakeState :=
  { mistakeLog := [{ mistakeId := "id1", topic := "Signals", concept := "FFT",
                     mistakeDescription := "mixed up n and k", correctAnswer := "k",
                     occurrenceCount := 1, isCorrected := true, reviewedCount := 0 }],
    totalMistakesMade := 1, totalMistakesCorrected := 1 }

lemma recordMistakeLog_open (t c d a id : String) :
    ∀ l : List MistakeEntry,
      (∃ m ∈ l, m.topic = t ∧ m.concept = c ∧ m.isCorrected = false) →
      (recordMistakeLog t c d a id l).2 = false
      ∧ (recordMistakeLog t c d a id l).1.length = l.length
      ∧ ((recordMistakeLog t c d a id l).1.map
            (fun m => m.occurrenceCount)).sum
          = (l.map (fun m => m.occurrenceCount)).sum + 1 := by
  intro l
  induction l with
  | nil => intro h; simp at h
  | cons m rest ih =>
      intro h
      by_cases hm : m.topic = t ∧ m.concept = c ∧ m.isCorrected = false
      · refine ⟨?_, ?_, ?_⟩ <;> simp [recordMistakeLog, hm] <;> omega
      · have hrest : ∃ m2 ∈ rest, m2.topic = t ∧ m2.concept = c ∧ m2.isCorrected = false := by
          obtain ⟨m2, hmem, hprop⟩ := h
          rcases List.mem_cons.1 hmem with h1 | h1
          · exact absurd hprop (h1 ▸ hm)
          · exact ⟨m2, h1, hprop⟩
        obtain ⟨h1, h2, h3⟩ := ih hrest
        refine ⟨?_, ?_, ?_⟩ <;> simp [recordMistakeLog, hm, h1, h2] <;> omega

lemma recordMistakeLog_closed (t c d a id : String) :
    ∀ l : List MistakeEntry,
      (∀ m ∈ l, ¬(m.topic = t ∧ m.concept = c ∧ m.isCorrected = false)) →
      recordMistakeLog t c d a id l
        = (l ++ [{ mistakeId := id, topic := t, concept := c,
                   mistakeDescription := d, correctAnswer := a,
                   occurrenceCount := 1, isCorrected := false, reviewedCount := 0 }],
           true) := by
  intro l
  induction l with
  | nil => intro _; rfl
  | cons m rest ih =>
      intro h
      have hm : ¬(m.topic = t ∧ m.concept = c ∧ m.isCorrected = false) :=
        h m (List.mem_cons_self m rest)
      have hrest := fun m2 h2 => h m2 (List.mem_cons_of_mem m h2)
      simp [recordMistakeLog, hm, ih hrest]

lemma recordMistakeLog_corrected_mem (t c d a id : String) :
    ∀ (l : List MistakeEntry) (m : MistakeEntry),
      m ∈ l → m.isCorrected = true → m ∈ (recordMistakeLog t c d a id l).1 := by
  intro l
  induction l with
  | nil => intro m h; simp at h
  | cons v rest ih =>
      intro m hmem hcor
      by_cases hv : v.topic = t ∧ v.concept = c ∧ v.isCorrected = false
      · rcases List.mem_cons.1 hmem with h1 | h1
        · rw [h1] at hcor
          rw [hcor] at hv
          simp at hv
        · simp [recordMistakeLog, hv, List.mem_cons]
          right
          exact h1
      · rcases List.mem_cons.1 hmem with h1 | h1
        · simp [recordMistakeLog, hv, h1]
        · simp [recordMistakeLog, hv]
          right
          exact ih m h1 hcor

lemma correctMistakeLog_already (mid : String) :
    ∀ (l : List MistakeEntry) (m : MistakeEntry),
      l.find? (fun m2 => m2.mistakeId == mid) = some m →
      m.isCorrected = true →
      correctMistakeLog mid l = (l, false) := by
  intro l
  induction l with
  | nil => intro m h; simp at h
  | cons v rest ih =>
      intro m hfind hcor
      by_cases hv : v.mistakeId = mid
      · have hm : v = m := by
          rw [List.find?_cons_of_pos _ (by simpa using hv)] at hfind
          exact Option.some.inj hfind
        rw [hm] at hv ⊢
        simp [correctMistakeLog, hv, hcor]
      · rw [List.find?_cons_of_neg _ (by simpa using hv)] at hfind
        simp [correctMistakeLog, hv, ih m hfind hcor]

/-- C10 counterexample: when the only (topic, concept) entry is already
corrected, `recordMistake` pushes a second entry with the same key instead of
incrementing the existing counter — the log is not deduplicated by
(topic, concept) alone. -/
theorem recordMistake_corrected_duplicate_cex :
    (recordMistake correctedState "Signals" "FFT" "again" "k" "id2").mistakeLog.length = 2
    ∧ (recordMistake correctedState "Signals" "FFT" "again" "k" "id2").mistakeLog.countP
        (fun m => m.topic == "Signals" && m.concept == "FFT") = 2
    ∧ ((recordMistake correctedState "Signals" "FFT" "again" "k" "id2").mistakeLog.map
        (fun m => m.occurrenceCount)) = [1, 1] := by
  refine ⟨rfl, rfl, rfl⟩

/-- C10 (amended): the mistake log is deduplicated by (topic, concept) among
open entries: with an open matching entry, `recordMistake` increments one
occurrence counter and adds no entry; with no open match it appends a fresh
open entry; corrected entries survive every `recordMistake` unchanged, and
`correctMistake` on an already-corrected entry is a no-op. -/
theorem mistakeLog_dedup_and_corrected_persist :
    (∀ (s : MistakeState) (t c d a id : String),
        (∃ m ∈ s.mistakeLog, m.topic = t ∧ m.concept = c ∧ m.isCorrected = false) →
        (recordMistake s t c d a id).mistakeLog.length = s.mistakeLog.length
        ∧ ((recordMistake s t c d a id).mistakeLog.map
              (fun m => m.occurrenceCount)).sum
            = (s.mistakeLog.map (fun m => m.occurrenceCount)).sum + 1
        ∧ (recordMistake s t c d a id).totalMistakesMade = s.totalMistakesMade)
    ∧ (∀ (s : MistakeState) (t c d a id : String),
        (∀ m ∈ s.mistakeLog, ¬(m.topic = t ∧ m.concept = c ∧ m.isCorrected = false)) →
        (recordMistake s t c d a id).mistakeLog
          = s.mistakeLog ++ [{ mistakeId := id, topic := t, concept := c,
                               mistakeDescription := d, correctAnswer := a,
                               occurrenceCount := 1, isCorrected := false,
                               reviewedCount := 0 }]
        ∧ (recordMistake s t c d a id).totalMistakesMade = s.totalMistakesMade + 1)
    ∧ (∀ (s : MistakeState) (t c d a id : String) (m : MistakeEntry),
        m ∈ s.mistakeLog → m.isCorrected = true →
        m ∈ (recordMistake s t c d a id).mistakeLog)
    ∧ (∀ (s : MistakeState) (mid : String) (m : MistakeEntry),
        s.mistakeLog.find? (fun m2 => m2.mistakeId == mid) = some m →
        m.isCorrected = true →
        correctMistake s mid = s) := by
  refine ⟨?_, ?_, ?_, ?_⟩
  · intro s t c d a id h
    obtain ⟨h1, h2, h3⟩ := recordMistakeLog_open t c d a id s.mistakeLog h
    exact ⟨h2, h3, by simp [recordMistake, h1]⟩
  · intro s t c d a id h
    have h1 := recordMistakeLog_closed t c d a id s.mistakeLog h
    constructor
    · simp [recordMistake, h1]
    · simp [recordMistake, h1]
  · intro s t c d a id m hmem hcor
    exact recordMistakeLog_corrected_mem t c d a id s.mistakeLog m hmem hcor
  · intro s mid m hfind hcor
    have h1 := correctMistakeLog_already mid s.mistakeLog m hfind hcor
    simp [correctMistake, h1]

/-- A state with one open mistake, for the C10 witness. -/
def openState : MistakeState :=
  { mistakeLog := [{ mistakeId := "id1", topic := "Signals", concept := "FFT",
                     mistakeDescription := "mixed up n and k", correctAnswer := "k",
                     occurrenceCount := 1, isCorrected := false, reviewedCount := 0 }],
    totalMistakesMade := 1, totalMistakesCorrected := 0 }

/-- C10 witness: the dedup/no-reopen theorem applied to concrete states. -/
theorem mistakeLog_dedup_and_corrected_persist_witness :
    ((recordMistake openState "Signals" "FFT" "again" "k" "id2").mistakeLog.length
        = openState.mistakeLog.length
      ∧ ((recordMistake openState "Signals" "FFT" "again" "k" "id2").mistakeLog.map
            (fun m => m.occurrenceCount)).sum
          = (openState.mistakeLog.map (fun m => m.occurrenceCount)).sum + 1
      ∧ (recordMistake openState "Signals" "FFT" "again" "k" "id2").totalMistakesMade
          = openState.totalMistakesMade)
    ∧ correctMistake correctedState "id1" = correctedState :=
  ⟨mistakeLog_dedup_and_corrected_persist.1 openState "Signals" "FFT" "again" "k" "id2"
      ⟨_, List.mem_cons_self _ _, rfl, rfl, rfl⟩,
   mistakeLog_dedup_and_corrected_persist.2.2.2 correctedState "id1" _ rfl rfl⟩

/-! ## AdaptiveQuiz (part_002, AdaptiveQuiz schema) -/

/-- One element of an attempt's `answers` array.  Only `isCorrect` is read by
`recordAttempt`; the ids/selected answers are carried through untouched and
omitted here. -/
structure QuizAnswer where
  isCorrect : Bool
deriving DecidableEq

/-- One `userAttempts` entry (the fields `recordAttempt` fills;
`startedAt`/`completedAt` dates enter only through `timeSpent`). -/
structure AttemptRecord where
  attemptNumber : ℕ
  timeSpent : ℚ
  score : ℚ
  maxScore : ℚ
  percentageScore : ℚ
  passed : Bool
  answers : List QuizAnswer
  correctAnswers : ℕ
  incorrectAnswers : ℚ
  unanswered : ℚ
  conceptsWithErrors : List String
  nextDifficultyRecommended : Option String
deriving DecidableEq

/-- The `performanceMetrics` sub-document. -/
structure PerformanceMetrics where
  totalAttempts : ℕ
  bestScore : ℚ
  averageScore : ℚ
  lowestScore : ℚ
  passCount : ℕ
  failCount : ℕ
  passRate : ℚ
  averageTimeSpent : ℚ
deriving DecidableEq

/-- Schema defaults for `performanceMetrics`. -/
def initPerformanceMetrics : PerformanceMetrics :=
  { totalAttempts := 0, bestScore := 0, averageScore := 0, lowestScore := 0,
    passCount := 0, failCount := 0, passRate := 0, averageTimeSpent := 0 }

/-- The AdaptiveQuiz fields read or written by `calculateNextDifficulty` and
`recordAttempt`.  Note the source's own spelling `scorethresholdForLevelUp`
(lower-case t). -/
structure AdaptiveQuiz where
  difficulty : String
  adaptiveEnabled : Bool
  scorethresholdForLevelUp : ℚ
  scoreThresholdForLevelDown : ℚ
  totalQuestions : ℚ
  maxScore : ℚ
  userAttempts : List AttemptRecord
  performanceMetrics : PerformanceMetrics
deriving DecidableEq

/-- The `['easy', 'medium', 'hard']` progression array. -/
def difficultyProgression : List String := ["easy", "medium", "hard"]

/-- JS `Array.prototype.indexOf`: index of the first occurrence, `-1` when
absent. -/
def jsIndexOf (l : List String) (x : String) : ℤ :=
  match l.findIdx? (fun y => y == x) with
  | some i => (i : ℤ)
  | none => -1

/-- `adaptiveQuizSchema.methods.calculateNextDifficulty` (part_002 lines
210-237).  It reads the LAST ELEMENT of `this.userAttempts`
(`userAttempts[userAttempts.length - 1]`) and steps the quiz difficulty up or
down from that attempt's `percentageScore`; with no attempts (or adaptivity
disabled) it returns the current difficulty. -/
def calculateNextDifficulty (q : AdaptiveQuiz) : String :=
  if q.adaptiveEnabled = false ∨ q.userAttempts.length = 0 then q.difficulty
  else
    match q.userAttempts.getLast? with
    | none => q.difficulty
    | some lastAttempt =>
      let score := lastAttempt.percentageScore
      if q.scorethresholdForLevelUp ≤ score then
        let currentIndex := jsIndexOf difficultyProgression q.difficulty
        if currentIndex < 2 then
          difficultyProgression.getD (currentIndex + 1).toNat "hard"
        else "hard"
      else if score < q.scoreThresholdForLevelDown then
        let currentIndex := jsIndexOf difficultyProgression q.difficulty
        if 0 < currentIndex then
          difficultyProgression.getD (currentIndex - 1).toNat "easy"
        else "easy"
      else q.difficulty

/-- `adaptiveQuizSchema.methods.recordAttempt` (part_002 lines 240-316).
Crucially, `nextDifficultyRecommended` is set to `this.calculateNextDifficulty()`
evaluated on the quiz BEFORE the new attempt is pushed (line 278 runs while
building the attempt object; the push is line 281). -/
def recordAttempt (q : AdaptiveQuiz) (startedAt completedAt : ℚ)
    (answers : List QuizAnswer) (conceptsWithErrors : List String) : AdaptiveQuiz :=
  let timeSpent := (completedAt - startedAt) / 60000
  let attemptNumber := q.userAttempts.length + 1
  let correctAnswers := answers.countP (fun a => a.isCorrect)
  let score := jround ((correctAnswers : ℚ) / q.totalQuestions * q.maxScore)
  let percentageScore := jround ((correctAnswers : ℚ) / q.totalQuestions * 100)
  let passed := decide ((70 : ℚ) ≤ percentageScore)
  let attempt : AttemptRecord :=
    { attemptNumber := attemptNumber, timeSpent := timeSpent, score := score,
      maxScore := q.maxScore, percentageScore := percentageScore, passed := passed,
      answers := answers, correctAnswers := correctAnswers,
      incorrectAnswers := q.totalQuestions - (correctAnswers : ℚ), unanswered := 0,
      conceptsWithErrors := conceptsWithErrors,
      nextDifficultyRecommended := some (calculateNextDifficulty q) }
  let userAttempts := q.userAttempts ++ [attempt]
  let pm := q.performanceMetrics
  let totalAttempts := pm.totalAttempts + 1
  let passCount := if passed then pm.passCount + 1 else pm.passCount
  let failCount := if passed then pm.failCount else pm.failCount + 1
  let passRate := jround ((passCount : ℚ) / (totalAttempts : ℚ) * 100)
  let bestScore :=
    if totalAttempts = 1 then score
    else if pm.bestScore < score then score else pm.bestScore
  let lowestScore :=
    if totalAttempts = 1 then score
    else if score < pm.lowestScore then score else pm.lowestScore
  let allScores := userAttempts.map (fun a => a.score)
  let averageScore := jround (allScores.sum / (allScores.length : ℚ))
  let allTimes := userAttempts.map (fun a => a.timeSpent)
  let averageTimeSpent := jround (allTimes.sum / (allTimes.length : ℚ))
  { q with userAttempts := userAttempts,
           performanceMetrics :=
             { totalAttempts := totalAttempts, bestScore := bestScore,
               averageScore := averageScore, lowestScore := lowestScore,
               passCount := passCount, failCount := failCount,
               passRate := passRate, averageTimeSpent := averageTimeSpent } }

/-- The next-difficulty step function as the specification words it: applied
to a current difficulty and THE ATTEMPT'S OWN percentage score, one step up
the easy < medium < hard scale at or above the level-up threshold (clamped at
hard), one step down below the level-down threshold (clamped at easy),
unchanged otherwise. -/
def difficultyStepClaimed (current : String) (percentageScore levelUp levelDown : ℚ) :
    String :=
  if levelUp ≤ percentageScore then
    match current with
    | "easy" => "medium"
    | "medium" => "hard"
    | _ => "hard"
  else if percentageScore < levelDown then
    match current with
    | "hard" => "medium"
    | "medium" => "easy"
    | _ => "easy"
  else current

/-- A freshly generated, never attempted medium quiz with 20 questions and the
default thresholds (80 up / 60 down) and default `maxScore` 100. -/
def freshMediumQuiz : AdaptiveQuiz :=
  { difficulty := "medium", adaptiveEnabled := true,
    scorethresholdForLevelUp := 80, scoreThresholdForLevelDown := 60,
    totalQuestions := 20, maxScore := 100,
    userAttempts := [], performanceMetrics := initPerformanceMetrics }

/-- Seventeen correct and three incorrect answers: percentage score 85. -/
def answers17of20 : List QuizAnswer :=
  List.replicate 17 ⟨true⟩ ++ List.replicate 3 ⟨false⟩

/-- C1: the recorded attempt's `nextDifficultyRecommended` is NOT the step
function of that attempt's own `percentageScore`: on a fresh medium quiz an
85% attempt stores the recommendation "medium" (because
`calculateNextDifficulty` is evaluated before the attempt is pushed and sees
no previous attempt), while the specified step function yields "hard". -/
theorem recordAttempt_nextDifficulty_stale :
    ((recordAttempt freshMediumQuiz 0 60000 answers17of20 []).userAttempts.map
        (fun a => (a.percentageScore, a.nextDifficultyRecommended)))
      = [(85, some "medium")]
    ∧ difficultyStepClaimed "medium" 85 80 60 = "hard" := by
  constructor
  · have hc : answers17of20.countP (fun a => a.isCorrect) = 17 := by decide
    norm_num [recordAttempt, freshMediumQuiz, jround,
      calculateNextDifficulty, initPerformanceMetrics, hc]
  · rfl

/-! ## RAGService (part_004): chunking and retrieval -/

/-- JS `String.prototype.split` with a one-character-class `+` regex: split on
maximal runs of characters satisfying `p`, keeping empty pieces at the ends
(`"a.".split` yields `["a",""]`, `"".split` yields `[""]`).  The flag records
whether the scanner is inside a delimiter run (in which state `acc` is empty). -/
def splitRunsAux (p : Char → Bool) : List Char → Bool → List Char → List String
  | [], _, acc => [String.mk acc.reverse]
  | c :: rest, inRun, acc =>
    if p c then
      if inRun then splitRunsAux p rest true acc
      else String.mk acc.reverse :: splitRunsAux p rest true []
    else splitRunsAux p rest false (c :: acc)

/-- Split a string on maximal runs of `p`-characters, JS regex style. -/
def jsSplitOnRuns (p : Char → Bool) (s : String) : List String :=
  splitRunsAux p s.data false []

/-- The `[.!?]` character class of `chunkText`. -/
def isSentenceTerminal (c : Char) : Bool := c = '.' || c = '!' || c = '?'

/-- `text.split(/[.!?]+/)` (part_004 line 45). -/
def jsSplitTerminals (s : String) : List String :=
  jsSplitOnRuns isSentenceTerminal s

/-- JS `String.prototype.trim`: drop leading and trailing whitespace. -/
def jsTrim (s : String) : String :=
  String.mk (((s.data.dropWhile Char.isWhitespace).reverse.dropWhile
    Char.isWhitespace).reverse)

/-- The loop body of `chunkText` (part_004 lines 49-56): accumulate the
sentence (plus the re-added `". "`) while the combined length stays below
`chunkSize`, otherwise flush the trimmed buffer and restart from the
sentence. -/
def chunkStep (chunkSize : ℕ) (st : List String × String) (sentence : String) :
    List String × String :=
  if st.2.length + sentence.length < chunkSize then
    (st.1, st.2 ++ sentence ++ ". ")
  else
    (st.1 ++ [jsTrim st.2], sentence ++ ". ")

/-- `RAGService.chunkText` (part_004 lines 44-59). -/
def chunkText (text : String) (chunkSize : ℕ) : List String :=
  let st := (jsSplitTerminals text).foldl (chunkStep chunkSize) ([], "")
  if st.2 ≠ "" then st.1 ++ [jsTrim st.2] else st.1

/-- `chunkText` with its default parameter `chunkSize = 1000`. -/
def chunkTextDefault (text : String) : List String := chunkText text 1000

/-- The chunking process as the specification words it (claim C9): greedily
accumulate split sentences into a running buffer; whenever appending the
current sentence would make the buffer length reach or exceed `targetSize`,
flush the trimmed buffer as a completed chunk and start a new buffer with
that sentence; flush any remaining buffer at the end. -/
def chunkClaimedAux (targetSize : ℕ) : List String → String → List String
  | [], buf => if buf ≠ "" then [jsTrim buf] else []
  | s :: rest, buf =>
    if targetSize ≤ buf.length + s.length then
      jsTrim buf :: chunkClaimedAux targetSize rest (s ++ ". ")
    else
      chunkClaimedAux targetSize rest (buf ++ s ++ ". ")

/-- The claim-side chunker: split on sentence-terminal punctuation, then run
the accumulation process described by the specification. -/
def chunkTextClaimed (text : String) (targetSize : ℕ) : List String :=
  chunkClaimedAux targetSize (jsSplitTerminals text) ""

lemma chunkFold_eq_claimed (n : ℕ) :
    ∀ (sentences : List String) (acc : List String) (buf : String),
      (if ((sentences.foldl (chunkStep n) (acc, buf)).2 ≠ "") then
          (sentences.foldl (chunkStep n) (acc, buf)).1
            ++ [jsTrim (sentences.foldl (chunkStep n) (acc, buf)).2]
        else (sentences.foldl (chunkStep n) (acc, buf)).1)
        = acc ++ chunkClaimedAux n sentences buf := by
  intro sentences
  induction sentences with
  | nil =>
      intro acc buf
      by_cases h : buf ≠ ""
      · simp [chunkClaimedAux, h]
      · simp [chunkClaimedAux, h]
  | cons s rest ih =>
      intro acc buf
      simp only [List.foldl_cons]
      by_cases h : buf.length + s.length < n
      · have hstep : chunkStep n (acc, buf) s = (acc, buf ++ s ++ ". ") := by
          simp [chunkStep, h]
        have hcond : ¬(n ≤ buf.length + s.length) := not_le.2 h
        rw [hstep, ih acc (buf ++ s ++ ". ")]
        simp [chunkClaimedAux, hcond]
      · have hstep : chunkStep n (acc, buf) s = (acc ++ [jsTrim buf], s ++ ". ") := by
          simp [chunkStep, h]
        have hcond : n ≤ buf.length + s.length := not_lt.1 h
        rw [hstep, ih (acc ++ [jsTrim buf]) (s ++ ". ")]
        simp [chunkClaimedAux, hcond]

/-- A text whose single sentence (15 characters) exceeds a target size of 10. -/
def longSentenceText : String := "aaaaaaaaaaaaaaa."

/-- C9: `chunkText` is exactly the sentence-split-and-greedy-accumulate
process of the specification (flushing whenever the buffer plus the current
sentence reaches or exceeds the target size, trimming each chunk, flushing
the rest at the end), its default target size is 1000 characters, and a
single over-long sentence yields a chunk exceeding the target size without
error. -/
theorem chunkText_matches_claimed :
    (∀ (text : String) (n : ℕ), chunkText text n = chunkTextClaimed text n)
    ∧ (∀ text : String, chunkTextDefault text = chunkText text 1000)
    ∧ (chunkText longSentenceText 10).any (fun c => decide (10 < c.length)) = true := by
  refine ⟨fun text n => ?_, fun text => rfl, by decide⟩
  have h := chunkFold_eq_claimed n (jsSplitTerminals text) [] ""
  simpa [chunkText, chunkTextClaimed] using h

/-- JS `String.prototype.toLowerCase` (ASCII behaviour). -/
def jsToLower (s : String) : String := String.mk (s.data.map Char.toLower)

/-- Does `needle` occur at the start of the list? -/
def listStarts : List Char → List Char → Bool
  | [], _ => true
  | _ :: _, [] => false
  | a :: as, b :: bs => a == b && listStarts as bs

/-- Does `needle` occur anywhere in the list? -/
def containsSeq (needle : List Char) : List Char → Bool
  | [] => needle.isEmpty
  | c :: rest => listStarts needle (c :: rest) || containsSeq needle rest

/-- JS `hay.includes(needle)`: substring containment. -/
def jsIncludes (hay needle : String) : Bool := containsSeq needle.data hay.data

/-- One flattened chunk as gathered by `retrieveRelevantChunks` (part_004
lines 127-137): text, source material title, embedding vector (possibly
empty).  The page number is carried through unchanged and omitted. -/
structure RagChunk where
  text : String
  source : String
  embedding : List ℚ
deriving DecidableEq

/-- A chunk together with its score (`{...chunk, score}`). -/
structure ScoredChunk where
  chunk : RagChunk
  score : ℚ
deriving DecidableEq

/-- The cosine-similarity loop of `retrieveRelevantChunks` (part_004 lines
144-153), which runs `i` over the QUERY embedding's indices: `Math.sqrt` is
the explicit parameter `sqrtFn` (exact square roots are irrational, so the
proofs constrain `sqrtFn` only where the real square root is needed).
Division by zero yields 0 in `ℚ` where JS would produce `NaN`; the claims
never touch that case. -/
def cosineSimilarity (sqrtFn : ℚ → ℚ) (q emb : List ℚ) : ℚ :=
  let dotProduct := (List.zipWith (fun a b => a * b) q emb).sum
  let normA := (q.map (fun a => a * a)).sum
  let normB := (List.zipWith (fun a b => b * b) q emb).sum
  dotProduct / (sqrtFn normA * sqrtFn normB)

/-- Scoring one chunk in vector mode (part_004 lines 141-154): an absent or
empty embedding scores 0, otherwise cosine similarity against the query. -/
def scoreChunkVec (sqrtFn : ℚ → ℚ) (q : List ℚ) (c : RagChunk) : ScoredChunk :=
  if c.embedding.isEmpty then ⟨c, 0⟩ else ⟨c, cosineSimilarity sqrtFn q c.embedding⟩

/-- The order underlying `sort((a, b) => b.score - a.score)` on index-tagged
scored chunks: higher score first, ties by original position.  JS
`Array.prototype.sort` is stable (ES2019), so the sort it performs is
exactly the sort by this total order. -/
def rankRel (a b : ℕ × ScoredChunk) : Prop :=
  b.2.score < a.2.score ∨ (a.2.score = b.2.score ∧ a.1 ≤ b.1)

instance rankRel.decRel : DecidableRel rankRel := fun a b => by
  unfold rankRel; infer_instance

instance rankRel.total : IsTotal (ℕ × ScoredChunk) rankRel := ⟨by
  intro a b
  rcases lt_trichotomy a.2.score b.2.score with h | h | h
  · exact Or.inr (Or.inl h)
  · rcases Nat.le_total a.1 b.1 with h2 | h2
    · exact Or.inl (Or.inr ⟨h, h2⟩)
    · exact Or.inr (Or.inr ⟨h.symm, h2⟩)
  · exact Or.inl (Or.inl h)⟩

instance rankRel.trans : IsTrans (ℕ × ScoredChunk) rankRel := ⟨by
  intro a b c hab hbc
  rcases hab with h1 | ⟨h1, h1i⟩ <;> rcases hbc with h2 | ⟨h2, h2i⟩
  · exact Or.inl (lt_trans h2 h1)
  · exact Or.inl (h2 ▸ h1)
  · exact Or.inl (by rw [h1]; exact h2)
  · exact Or.inr ⟨h1.trans h2, le_trans h1i h2i⟩⟩

/-- The stable descending sort by score (`.sort((a, b) => b.score - a.score)`). -/
def sortByScoreDesc (l : List ScoredChunk) : List ScoredChunk :=
  ((l.enum).insertionSort rankRel).map Prod.snd

/-- The vector-scored corpus. -/
def vecScored (sqrtFn : ℚ → ℚ) (q : List ℚ) (chunks : List RagChunk) :
    List ScoredChunk :=
  chunks.map (scoreChunkVec sqrtFn q)

/-- The vector branch of `retrieveRelevantChunks` (part_004 lines 139-159):
score, sort descending, slice the first `topK`. -/
def vectorRank (sqrtFn : ℚ → ℚ) (chunks : List RagChunk) (q : List ℚ)
    (topK : ℕ) : List ScoredChunk :=
  (sortByScoreDesc (vecScored sqrtFn q chunks)).take topK

/-- `query.toLowerCase().split(/\s+/).filter(t => t.length > 3)`
(part_004 line 162). -/
def keywordTerms (query : String) : List String :=
  (jsSplitOnRuns Char.isWhitespace (jsToLower query)).filter (fun t => 3 < t.length)

/-- The keyword score of one chunk (part_004 lines 163-170): the number of
query terms (with multiplicity) contained case-insensitively in the chunk
text. -/
def keywordScore (query : String) (c : RagChunk) : ℚ :=
  (((keywordTerms query).countP (fun t => jsIncludes (jsToLower c.text) t) : ℕ) : ℚ)

/-- The keyword fallback branch of `retrieveRelevantChunks` (part_004 lines
160-176): score by keyword overlap, discard zero scores, sort descending,
slice the first `topK`. -/
def keywordRank (chunks : List RagChunk) (query : String) (topK : ℕ) :
    List ScoredChunk :=
  (sortByScoreDesc
      ((chunks.map (fun c => ⟨c, keywordScore query c⟩)).filter
        (fun sc => 0 < sc.score))).take topK

/-- `RAGService.retrieveRelevantChunks` (part_004 lines 113-177),
deterministic core: the course lookup and the embedding call are the
parameters `chunks` (the flattened material chunks, in insertion order) and
`queryEmbedding` (`none` when the provider is unconfigured or failed).  The
branch condition is the source's
`queryEmbedding && allChunks.some(c => c.embedding && c.embedding.length > 0)`. -/
def retrieveRelevantChunks (sqrtFn : ℚ → ℚ) (chunks : List RagChunk)
    (queryEmbedding : Option (List ℚ)) (query : String) (topK : ℕ) :
    List ScoredChunk :=
  match queryEmbedding with
  | some q =>
      if chunks.any (fun c => !c.embedding.isEmpty) then vectorRank sqrtFn chunks q topK
      else keywordRank chunks query topK
  | none => keywordRank chunks query topK

/-- A one-chunk corpus whose embedding is orthogonal to the query `[1, 0]`,
so every similarity score is 0. -/
def zeroSimChunk : RagChunk := { text := "hello world", source := "doc1", embedding := [0, 1] }

/-- C3 counterexample: with a query embedding present and a chunk embedding
present but orthogonal, every similarity score is 0, yet
`retrieveRelevantChunks` still returns the embedding-based ranking (the
zero-scored chunk), not the keyword ranking (which would be empty for this
query) — uniformly zero scores do NOT activate keyword mode.  (`sqrtFn` is
the identity, which agrees with `Math.sqrt` on the only norm occurring, 1.) -/
theorem retrieve_zero_scores_not_keyword_cex :
    ((vecScored (fun x => x) [1, 0] [zeroSimChunk]).map ScoredChunk.score = [0])
    ∧ retrieveRelevantChunks (fun x => x) [zeroSimChunk] (some [1, 0]) "zzzzz" 3
        = [⟨zeroSimChunk, 0⟩]
    ∧ keywordRank [zeroSimChunk] "zzzzz" 3 = [] := by
  have hcos : cosineSimilarity (fun x => x) [1, 0] [0, 1] = (0 : ℚ) := by
    norm_num [cosineSimilarity]
  have hterm : keywordTerms "zzzzz" = ["zzzzz"] := rfl
  have hinc : jsIncludes (jsToLower "hello world") "zzzzz" = false := rfl
  have hscore : keywordScore "zzzzz" zeroSimChunk = 0 := by
    simp [keywordScore, hterm, zeroSimChunk, hinc]
  refine ⟨?_, ?_, ?_⟩
  · simp [vecScored, scoreChunkVec, zeroSimChunk, hcos]
  · simp [retrieveRelevantChunks, zeroSimChunk, vectorRank, vecScored, scoreChunkVec,
      hcos, sortByScoreDesc, List.enum, List.enumFrom, List.insertionSort,
      List.orderedInsert]
  · simp [keywordRank, hscore, zeroSimChunk, sortByScoreDesc, List.filter]

/-- C3 (amended): the keyword fallback activates exactly when no query
embedding is available OR no stored chunk has a non-empty embedding; when a
query embedding exists and some chunk has a non-empty embedding the result is
the embedding-based ranking (regardless of the score values). -/
theorem retrieve_fallback_condition :
    (∀ (sqrtFn : ℚ → ℚ) (chunks : List RagChunk) (query : String) (topK : ℕ),
        retrieveRelevantChunks sqrtFn chunks none query topK
          = keywordRank chunks query topK)
    ∧ (∀ (sqrtFn : ℚ → ℚ) (chunks : List RagChunk) (q : List ℚ) (query : String)
          (topK : ℕ),
        (∀ c ∈ chunks, c.embedding = []) →
        retrieveRelevantChunks sqrtFn chunks (some q) query topK
          = keywordRank chunks query topK)
    ∧ (∀ (sqrtFn : ℚ → ℚ) (chunks : List RagChunk) (q : List ℚ) (query : String)
          (topK : ℕ),
        (∃ c ∈ chunks, c.embedding ≠ []) →
        retrieveRelevantChunks sqrtFn chunks (some q) query topK
          = vectorRank sqrtFn chunks q topK) := by
  refine ⟨fun sqrtFn chunks query topK => rfl, ?_, ?_⟩
  · intro sqrtFn chunks q query topK h
    have hany : chunks.any (fun c => !c.embedding.isEmpty) = false := by
      rw [List.any_eq_false]
      intro c hc
      simp [h c hc]
    simp [retrieveRelevantChunks, hany]
  · intro sqrtFn chunks q query topK h
    obtain ⟨c, hc, hne⟩ := h
    have hany : chunks.any (fun c => !c.embedding.isEmpty) = true := by
      rw [List.any_eq_true]
      exact ⟨c, hc, by simpa [List.isEmpty_iff] using hne⟩
    simp [retrieveRelevantChunks, hany]

/-- C3 witness: the fallback-condition theorem at concrete inputs. -/
theorem retrieve_fallback_condition_witness :
    retrieveRelevantChunks (fun x => x) [zeroSimChunk] none "zzzzz" 3
        = keywordRank [zeroSimChunk] "zzzzz" 3
    ∧ retrieveRelevantChunks (fun x => x) [zeroSimChunk] (some [1, 0]) "q" 2
        = vectorRank (fun x => x) [zeroSimChunk] [1, 0] 2 :=
  ⟨retrieve_fallback_condition.1 (fun x => x) [zeroSimChunk] "zzzzz" 3,
   retrieve_fallback_condition.2.2 (fun x => x) [zeroSimChunk] [1, 0] "q" 2
     ⟨zeroSimChunk, by simp, by simp [zeroSimChunk]⟩⟩

/-- First example chunk (embedding `[1, 0]`). -/
def exChunk1 : RagChunk := { text := "c1", source := "doc", embedding := [1, 0] }

/-- Second example chunk (embedding `[0, 1]`). -/
def exChunk2 : RagChunk := { text := "c2", source := "doc", embedding := [0, 1] }

/-- Third example chunk (embedding `[0.9, 0.1]`). -/
def exChunk3 : RagChunk := { text := "c3", source := "doc", embedding := [9 / 10, 1 / 10] }

/-- The three-chunk example corpus of the specification. -/
def exampleCorpus : List RagChunk := [exChunk1, exChunk2, exChunk3]

/-- C6: with a query embedding and at least one non-empty chunk embedding,
retrieval returns the first `topK` of a ranking that is a permutation of the
cosine-scored corpus, sorted by score descending with ties broken by original
insertion order (`rankRel` on index-tagged chunks); the result length is
`min topK corpusSize` (so an oversized `topK` returns everything); and on the
corpus `[1,0]`, `[0,1]`, `[0.9,0.1]` with query `[1,0]` and `topK = 2` it
returns the first and third chunks in that order (stated for any `sqrtFn`
that behaves like the real square root on the occurring norms 1 and 0.82). -/
theorem retrieve_vector_ranking :
    (∀ (sqrtFn : ℚ → ℚ) (chunks : List RagChunk) (q : List ℚ) (query : String)
        (topK : ℕ),
        chunks.any (fun c => !c.embedding.isEmpty) = true →
        ∃ ranked : List (ℕ × ScoredChunk),
          ranked.Perm (vecScored sqrtFn q chunks).enum
          ∧ List.Sorted rankRel ranked
          ∧ retrieveRelevantChunks sqrtFn chunks (some q) query topK
              = (ranked.map Prod.snd).take topK
          ∧ (retrieveRelevantChunks sqrtFn chunks (some q) query topK).length
              = min topK chunks.length)
    ∧ (∀ sqrtFn : ℚ → ℚ, sqrtFn 1 = 1 → (9 / 10 : ℚ) < sqrtFn (41 / 50) →
        (retrieveRelevantChunks sqrtFn exampleCorpus (some [1, 0]) "what" 2).map
            ScoredChunk.chunk = [exChunk1, exChunk3]) := by
  constructor
  · intro sqrtFn chunks q query topK h
    refine ⟨(vecScored sqrtFn q chunks).enum.insertionSort rankRel,
      List.perm_insertionSort rankRel _, List.sorted_insertionSort rankRel _, ?_, ?_⟩
    · simp [retrieveRelevantChunks, h, vectorRank, sortByScoreDesc]
    · have hlen : ((vecScored sqrtFn q chunks).enum.insertionSort rankRel).length
          = chunks.length := by
        rw [(List.perm_insertionSort rankRel _).length_eq, List.enum_length]
        simp [vecScored]
      simp [retrieveRelevantChunks, h, vectorRank, sortByScoreDesc, List.length_take, hlen]
  · intro sqrtFn hsq1 hlo
    have hspos : (0 : ℚ) < sqrtFn (41 / 50) := lt_trans (by norm_num) hlo
    have hA : scoreChunkVec sqrtFn [1, 0] exChunk1 = ⟨exChunk1, 1⟩ := by
      norm_num [scoreChunkVec, exChunk1, cosineSimilarity, hsq1]
    have hB : scoreChunkVec sqrtFn [1, 0] exChunk2 = ⟨exChunk2, 0⟩ := by
      norm_num [scoreChunkVec, exChunk2, cosineSimilarity]
    have hC : scoreChunkVec sqrtFn [1, 0] exChunk3
        = ⟨exChunk3, (9 / 10) / sqrtFn (41 / 50)⟩ := by
      norm_num [scoreChunkVec, exChunk3, cosineSimilarity, hsq1]
    have hscorepos : (0 : ℚ) < (9 / 10) / sqrtFn (41 / 50) :=
      div_pos (by norm_num) hspos
    have hscorelt : (9 / 10) / sqrtFn (41 / 50) < (1 : ℚ) :=
      (div_lt_one hspos).2 hlo
    have hcond : exampleCorpus.any (fun c => !c.embedding.isEmpty) = true := by
      simp [exampleCorpus, exChunk1]
    have hvec : vecScored sqrtFn [1, 0] exampleCorpus
        = [⟨exChunk1, 1⟩, ⟨exChunk2, 0⟩,
           ⟨exChunk3, (9 / 10) / sqrtFn (41 / 50)⟩] := by
      simp [vecScored, exampleCorpus, hA, hB, hC]
    have hno1 : ¬ rankRel (1, ⟨exChunk2, 0⟩)
        (2, ⟨exChunk3, (9 / 10) / sqrtFn (41 / 50)⟩) := by
      intro hcon
      unfold rankRel at hcon
      rcases hcon with h | ⟨h, -⟩
      · exact absurd h (not_lt.2 (le_of_lt hscorepos))
      · exact absurd h.symm (ne_of_gt hscorepos)
    have hyes1 : rankRel (0, ⟨exChunk1, 1⟩)
        (2, ⟨exChunk3, (9 / 10) / sqrtFn (41 / 50)⟩) := Or.inl hscorelt
    have henum : (vecScored sqrtFn [1, 0] exampleCorpus).enum
        = [(0, (⟨exChunk1, 1⟩ : ScoredChunk)), (1, ⟨exChunk2, 0⟩),
           (2, ⟨exChunk3, (9 / 10) / sqrtFn (41 / 50)⟩)] := by
      rw [hvec]
      rfl
    have hsorted : List.insertionSort rankRel
        [(0, (⟨exChunk1, 1⟩ : ScoredChunk)), (1, ⟨exChunk2, 0⟩),
         (2, ⟨exChunk3, (9 / 10) / sqrtFn (41 / 50)⟩)]
        = [(0, (⟨exChunk1, 1⟩ : ScoredChunk)),
           (2, ⟨exChunk3, (9 / 10) / sqrtFn (41 / 50)⟩), (1, ⟨exChunk2, 0⟩)] := by
      simp only [List.insertionSort, List.orderedInsert]
      rw [if_neg hno1]
      simp only [List.orderedInsert]
      rw [if_pos hyes1]
    have hret : retrieveRelevantChunks sqrtFn exampleCorpus (some [1, 0]) "what" 2
        = vectorRank sqrtFn exampleCorpus [1, 0] 2 := by
      simp [retrieveRelevantChunks, hcond]
    rw [hret]
    unfold vectorRank sortByScoreDesc
    rw [henum, hsorted]
    rfl

/-- A concrete rational stand-in for `Math.sqrt` on the norms of the example
corpus: exact at 1 and within the required bracket at 0.82. -/
def exampleSqrt : ℚ → ℚ := fun x => if x = 41 / 50 then 91 / 100 else x

/-- C6 witness: the ranking theorem at the concrete corpus, once with an
oversized `topK` and once on the specification's example. -/
theorem retrieve_vector_ranking_witness :
    (∃ ranked : List (ℕ × ScoredChunk),
        ranked.Perm (vecScored (fun x => x) [1, 0] exampleCorpus).enum
        ∧ List.Sorted rankRel ranked
        ∧ retrieveRelevantChunks (fun x => x) exampleCorpus (some [1, 0]) "what" 5
            = (ranked.map Prod.snd).take 5
        ∧ (retrieveRelevantChunks (fun x => x) exampleCorpus (some [1, 0]) "what" 5).length
            = min 5 exampleCorpus.length)
    ∧ (retrieveRelevantChunks exampleSqrt exampleCorpus (some [1, 0]) "what" 2).map
        ScoredChunk.chunk = [exChunk1, exChunk3] :=
  ⟨retrieve_vector_ranking.1 (fun x => x) exampleCorpus [1, 0] "what" 5
      (by simp [exampleCorpus, exChunk1]),
   retrieve_vector_ranking.2 exampleSqrt (by norm_num [exampleSqrt])
      (by norm_num [exampleSqrt])⟩
